import Mathlib

/-!
Verification of the SQL-validation core of the mcp-llm-db repository.

The development shallowly embeds the two source files:
* `src/main.py`: `_strip_code_fences`, `_clean_and_validate_sql`, `query_db_impl`
  (strings are embedded as `List Char`; the Python `re` operations used by the
  source are embedded with their documented semantics for the two concrete
  patterns that occur, and the external collaborators -- the Ollama client and
  the database engine -- are embedded as explicit outcome parameters);
* `src/tools/db_tool.py`: `query_orders_by_user` (the relational meaning of the
  fixed SQL text it executes is embedded as filter / sort-descending / take 5).
-/

namespace McpLlmDb

/-- The backtick character, written via its code point. -/
def backtick : Char := Char.ofNat 96

/-- Whitespace as recognised by Python `str.strip` and the regex class `\s`
(ASCII range, which is the range exercised by this repository). -/
def isPySpace (c : Char) : Bool :=
  c == ' ' || c == '\t' || c == '\n' || c == '\r' || c == Char.ofNat 11 || c == Char.ofNat 12

/-- Word characters for the regex word boundary `\b` (ASCII range). -/
def isWordChar (c : Char) : Bool :=
  c.isAlpha || c.isDigit || c == '_'

/-- Length of the maximal whitespace prefix; the semantics of a greedy
leading regex `\s*`. -/
def countSpaces : List Char → Nat
  | [] => 0
  | c :: rest => if isPySpace c then countSpaces rest + 1 else 0

/-- Drop trailing characters satisfying `p`; helper for Python `strip`/`rstrip`. -/
def dropTrailing (p : Char → Bool) (l : List Char) : List Char :=
  (l.reverse.dropWhile p).reverse

/-- Python `str.strip()`: remove leading and trailing whitespace. -/
def pyStrip (l : List Char) : List Char :=
  dropTrailing isPySpace (l.dropWhile isPySpace)

/-- Python `str.rstrip(";")`: remove every trailing semicolon. -/
def rstripSemis (l : List Char) : List Char :=
  dropTrailing (fun c => c == ';') l

/-- Does the list start with three backticks (the regex literal made of three
backtick characters)? -/
def startsWithTriple : List Char → Bool
  | b1 :: b2 :: b3 :: _ => b1 == backtick && b2 == backtick && b3 == backtick
  | _ => false

/-- Does the list start with the three letters of the optional language tag,
case-insensitively (the regex group `(?:` + `sql` + `)?` under IGNORECASE)? -/
def startsWithSqlTag (l : List Char) : Bool :=
  (l.take 3).map Char.toLower == ['s', 'q', 'l']

/-- The MULTILINE end-of-line anchor after a match: it succeeds at the end of
the string or immediately before a newline. -/
def dollarAt : List Char → Bool
  | [] => true
  | c :: _ => c == '\n'

/-- Length of a match of the first regex alternative (line-start anchor, three
backticks, optional language tag, greedy trailing `\s*`) at the current
position.  `bol` records whether the position is at the start of the string or
immediately after a newline (the MULTILINE line-start anchor). -/
def alt1Len (l : List Char) (bol : Bool) : Option Nat :=
  if bol && startsWithTriple l then
    if startsWithSqlTag (l.drop 3) then some (6 + countSpaces (l.drop 6))
    else some (3 + countSpaces (l.drop 3))
  else none

/-- Length of a match of the second regex alternative (greedy `\s*`, three
backticks, end-of-line anchor) at the current position.  Backtracking of the
greedy `\s*` is immaterial: a backtick is not whitespace, so only the maximal
whitespace run can be followed by the three backticks. -/
def alt2Len (l : List Char) : Option Nat :=
  if startsWithTriple (l.drop (countSpaces l)) && dollarAt ((l.drop (countSpaces l)).drop 3)
  then some (countSpaces l + 3) else none

/-- Length of the leftmost regex match at the current position; the first
alternative is preferred, as in regex alternation. -/
def matchLen (l : List Char) (bol : Bool) : Option Nat :=
  match alt1Len l bol with
  | some n => some n
  | none => alt2Len l

/-- The scan of `re.sub(pattern, "", s, flags=IGNORECASE|MULTILINE)`: try a
match at each position; on a match of length `n` delete those `n` characters
and resume after them, otherwise keep one character and advance.  `skip` is
the number of characters of a current match still to delete; `bol` tracks the
line-start anchor state. -/
def subAux : List Char → Bool → Nat → List Char
  | [], _, _ => []
  | c :: rest, _, k + 1 => subAux rest (c == '\n') k
  | c :: rest, bol, 0 =>
    match matchLen (c :: rest) bol with
    | some n => subAux rest (c == '\n') (n - 1)
    | none => c :: subAux rest (c == '\n') 0

/-- `_strip_code_fences` from `src/main.py`: strip the input, then delete every
match of the fence pattern under IGNORECASE and MULTILINE. -/
def strip_code_fences (s : List Char) : List Char :=
  subAux (pyStrip s) true 0

/-- The forbidden keyword alternatives of the compiled regex `FORBIDDEN`
(`src/main.py` line 27), lowercased. -/
def forbiddenKeywords : List (List Char) :=
  ["insert", "update", "delete", "drop", "alter", "truncate", "create"].map String.toList

/-- Is the character at index `i` (if any) a word character? -/
def wordCharAt (l : List Char) (i : Nat) : Bool :=
  match l[i]? with
  | some c => isWordChar c
  | none => false

/-- Does the word-bounded, case-insensitive keyword `kw` (a list of lowercase
letters) match at index `i` of `l`?  Since every keyword character is a word
character, the boundary `\b` before the match holds exactly when the match is
at index 0 or preceded by a non-word character, and symmetrically after it. -/
def boundedMatchAt (l kw : List Char) (i : Nat) : Bool :=
  ((l.drop i).take kw.length).map Char.toLower == kw
    && (i == 0 || !wordCharAt l (i - 1))
    && !wordCharAt l (i + kw.length)

/-- `FORBIDDEN.search(l)` viewed as a Boolean: some forbidden keyword has a
word-bounded, case-insensitive occurrence somewhere in `l`. -/
def forbiddenSearch (l : List Char) : Bool :=
  forbiddenKeywords.any fun kw =>
    (List.range (l.length + 1)).any fun i => boundedMatchAt l kw i

/-- `sql.lower().startswith("select")` from `src/main.py` line 73. -/
def startsSelectLower (l : List Char) : Bool :=
  (l.map Char.toLower).take 6 == "select".toList

/-- The three validation failures raised by `_clean_and_validate_sql`.
`notSelect` carries the 40-character preview interpolated into its message. -/
inductive ValidationError
  | notSelect (preview : List Char)
  | forbiddenKeyword
  | multipleStatements
deriving DecidableEq, Repr

/-- The cleaning pipeline of `_clean_and_validate_sql` line 70:
`_strip_code_fences(sql).strip().rstrip(";").strip()`. -/
def clean_sql (sql : List Char) : List Char :=
  pyStrip (rstripSemis (pyStrip (strip_code_fences sql)))

/-- `_clean_and_validate_sql` from `src/main.py`: clean, then require the
lowercased text to start with `select`, then reject any word-bounded forbidden
keyword, then reject any remaining semicolon; return the cleaned text. -/
def clean_and_validate_sql (sql : List Char) : Except ValidationError (List Char) :=
  let s := clean_sql sql
  if startsSelectLower s = false then .error (.notSelect (s.take 40))
  else if forbiddenSearch s = true then .error .forbiddenKeyword
  else if s.contains ';' = true then .error .multipleStatements
  else .ok s

/-- Outcome of the `ollama.chat` call in `query_db_impl`: either the message
content string, or the rendering of a raised exception (transport error,
timeout, malformed response), which the surrounding `try` converts into the
generation-stage failure. -/
inductive ChatOutcome
  | ok (content : List Char)
  | err (message : List Char)
deriving DecidableEq, Repr

/-- A database value inside a returned row (`dict(row._mapping)`). -/
inductive DBValue
  | intVal (i : Int)
  | strVal (s : List Char)
  | nullVal
deriving DecidableEq, Repr

/-- A returned row: a mapping from column name to value. -/
abbrev DBRow : Type := List (List Char × DBValue)

/-- Outcome of executing a statement on the database engine: the materialized
rows, or the rendering of a raised exception, which the surrounding `try`
converts into the execution-stage failure. -/
inductive ExecOutcome
  | ok (rows : List DBRow)
  | err (message : List Char)
deriving Repr

/-- The four shapes of dictionary returned by `query_db_impl`
(`src/main.py` lines 196-216): success with `sql` and `rows`; generation
failure with `error`; validation failure with `error` and `llm_sql`;
execution failure with `error` and `sql`. -/
inductive ResultRecord
  | success (sql : List Char) (rows : List DBRow)
  | genFailure (error : List Char)
  | valFailure (error : List Char) (llm_sql : List Char)
  | execFailure (error : List Char) (sql : List Char)
deriving Repr

/-- `str(e)` for the `ValueError`s raised by `_clean_and_validate_sql`. -/
def renderValidationError : ValidationError → List Char
  | .notSelect preview =>
      "Only SELECT queries are allowed. Got: ".toList ++ preview ++ "...".toList
  | .forbiddenKeyword =>
      "Detected forbidden SQL keyword (INSERT/UPDATE/DELETE/DROP/ALTER/TRUNCATE/CREATE).".toList
  | .multipleStatements => "Multiple statements are not allowed.".toList

/-- `query_db_impl` from `src/main.py`.  The model call and the database
engine are external collaborators; they enter as the outcome `chat` of the
chat call for the prompt built from the question, and as the engine behavior
`exec` mapping a statement to its outcome.  The source strips the chat
content (`chat["message"]["content"].strip()`) before validation, and each
stage's `try` turns a failure into the corresponding tagged dictionary. -/
def query_db_impl (chat : ChatOutcome) (dbExec : List Char → ExecOutcome) : ResultRecord :=
  match chat with
  | .err e => .genFailure ("Ollama call failed: ".toList ++ e)
  | .ok content =>
    let raw := pyStrip content
    match clean_and_validate_sql raw with
    | .error ve => .valFailure ("SQL validation failed: ".toList ++ renderValidationError ve) raw
    | .ok sql =>
      match dbExec sql with
      | .err e => .execFailure ("DB execution failed: ".toList ++ e) sql
      | .ok rows => .success sql rows

/-- The `ok` field of the returned dictionary. -/
def okFlag : ResultRecord → Bool
  | .success _ _ => true
  | _ => false

/-- Does `l` begin with `p`? -/
def listStartsWith (l p : List Char) : Bool := l.take p.length == p

/-- Does a failure record carry the stage-identifying message prefix of its
stage (`Ollama call failed: ` / `SQL validation failed: ` /
`DB execution failed: `)? -/
def stageTagged : ResultRecord → Bool
  | .success _ _ => false
  | .genFailure m => listStartsWith m "Ollama call failed: ".toList
  | .valFailure m _ => listStartsWith m "SQL validation failed: ".toList
  | .execFailure m _ => listStartsWith m "DB execution failed: ".toList

/-- A row of the `orders` table (`id`, `user_id`, `order_date`, `status`),
with the timestamp embedded as an integer so that the `ORDER BY` comparison
is total. -/
structure Order where
  id : Int
  user_id : Int
  order_date : Int
  status : List Char
deriving DecidableEq, Repr

/-- Insert an order into a list kept sorted by `order_date` descending. -/
def insertByDateDesc (o : Order) : List Order → List Order
  | [] => [o]
  | x :: xs => if x.order_date ≤ o.order_date then o :: x :: xs else x :: insertByDateDesc o xs

/-- Sort a list of orders by `order_date` descending. -/
def sortByDateDesc : List Order → List Order
  | [] => []
  | x :: xs => insertByDateDesc x (sortByDateDesc xs)

/-- The relational meaning of the fixed statement executed by
`query_orders_by_user` (`src/tools/db_tool.py` line 12):
`SELECT * FROM orders WHERE user_id = :user_id ORDER BY order_date DESC
LIMIT 5`, evaluated against the current contents of the `orders` table. -/
def orders_query (uid : Int) (table : List Order) : List Order :=
  (sortByDateDesc (table.filter fun o => o.user_id = uid)).take 5

/-- The f-string `f"No recent orders found for user {user_id}."`. -/
def noOrdersMessage (uid : Int) : List Char :=
  "No recent orders found for user ".toList ++ (toString uid).toList ++ ".".toList

/-- `query_orders_by_user` from `src/tools/db_tool.py`: run the fixed query
for the given user against the table state, return the no-orders message if
no rows came back, and otherwise the newline-joined rendering of the rows
(`"\n".join(str(dict(row)) for row in orders)`); the Python `str(dict(...))`
rendering of a single row is embedded as the parameter `render`. -/
def query_orders_by_user (uid : Int) (table : List Order)
    (render : Order → List Char) : List Char :=
  let orders := orders_query uid table
  if orders.isEmpty then noOrdersMessage uid
  else List.intercalate ['\n'] (orders.map render)

/-- Modelled from the spec: the first word of a statement (the maximal
whitespace-free prefix), used by the spec sentence stating that the first
word / first token of a validated statement is the SELECT keyword.  The
source has no such definition; it only checks a six-character prefix. -/
def specFirstWord (l : List Char) : List Char :=
  l.takeWhile fun c => isPySpace c = false

/-- Modelled from the spec: strip exactly one trailing statement separator
(after trimming) and re-trim, as stated in the spec's validation step 1.  The
source instead strips every trailing semicolon with `rstrip(";")`. -/
def specStripOneSemi (l : List Char) : List Char :=
  match l.getLast? with
  | some c => if c = ';' then pyStrip l.dropLast else pyStrip l
  | none => l

/-- No word character at the end: the word-boundary condition to the left of
an occurrence that starts the string or follows `pre`. -/
def LeftBoundary (pre : List Char) : Prop :=
  ∀ c, pre.getLast? = some c → isWordChar c = false

/-- No word character at the head: the word-boundary condition to the right of
an occurrence that ends the string or is followed by `post`. -/
def RightBoundary (post : List Char) : Prop :=
  ∀ c, post.head? = some c → isWordChar c = false

/-- `l` contains a case-insensitive, word-boundary-delimited occurrence of the
lowercase keyword `kw`: it splits as `pre ++ w ++ post` where `w` lowercases
to `kw` and both neighbours (when present) are non-word characters. -/
def WordBoundedOcc (l kw : List Char) : Prop :=
  ∃ pre w post, l = pre ++ w ++ post ∧ w.map Char.toLower = kw ∧
    LeftBoundary pre ∧ RightBoundary post

/-- Does the list contain three consecutive backticks anywhere? -/
def hasTriple : List Char → Bool
  | [] => false
  | c :: rest => startsWithTriple (c :: rest) || hasTriple rest

/-- The line-start anchor state after consuming `a`: determined by the last
consumed character, or by the incoming state when nothing was consumed. -/
def lastBol (a : List Char) (bol : Bool) : Bool :=
  match a.getLast? with
  | some c => c == '\n'
  | none => bol

/-- A keyword occurrence body `w` that the fence-removal pass can never touch:
nonempty, free of backticks, whitespace and semicolons, and not starting with
a letter of the language tag `sql` (so no fence-pattern match can overlap it). -/
def SafeW (w : List Char) : Prop :=
  w ≠ [] ∧ (∀ c ∈ w, c ≠ backtick ∧ isPySpace c = false ∧ (c == ';') = false) ∧
    (∀ c, w.head? = some c →
      c.toLower ≠ 's' ∧ c.toLower ≠ 'q' ∧ c.toLower ≠ 'l')

/-- Decidable shape check on a lowercase keyword guaranteeing `SafeW` for any
string that lowercases to it: nonempty, all lowercase letters, and not
starting with `s`, `q` or `l`. -/
def goodKw (kw : List Char) : Bool :=
  (match kw with
    | [] => false
    | c :: _ => !(c == 's' || c == 'q' || c == 'l')) &&
    kw.all fun c => 'a' ≤ c && c ≤ 'z'

/-! ### Unfolding equations for the substitution scan -/

theorem subAux_nil (bol : Bool) (k : Nat) : subAux [] bol k = [] := rfl

theorem subAux_cons_skip (c : Char) (l : List Char) (bol : Bool) (k : Nat) :
    subAux (c :: l) bol (k + 1) = subAux l (c == '\n') k := rfl

theorem subAux_cons_zero (c : Char) (l : List Char) (bol : Bool) :
    subAux (c :: l) bol 0 =
      match matchLen (c :: l) bol with
      | some n => subAux l (c == '\n') (n - 1)
      | none => c :: subAux l (c == '\n') 0 := rfl

theorem subAux_cons_match {c : Char} {l : List Char} {bol : Bool} {n : Nat}
    (h : matchLen (c :: l) bol = some n) :
    subAux (c :: l) bol 0 = subAux l (c == '\n') (n - 1) := by
  rw [subAux_cons_zero, h]

theorem subAux_cons_none {c : Char} {l : List Char} {bol : Bool}
    (h : matchLen (c :: l) bol = none) :
    subAux (c :: l) bol 0 = c :: subAux l (c == '\n') 0 := by
  rw [subAux_cons_zero, h]

/-! ### The substitution is the identity in the absence of fence delimiters -/

theorem hasTriple_of_startsWithTriple {l : List Char} (h : startsWithTriple l = true) :
    hasTriple l = true := by
  cases l with
  | nil => simp [startsWithTriple] at h
  | cons c rest => simp [hasTriple, h]

theorem hasTriple_tail {c : Char} {l : List Char} (h : hasTriple (c :: l) = false) :
    hasTriple l = false := by
  simp only [hasTriple, Bool.or_eq_false_iff] at h
  exact h.2

theorem hasTriple_drop {l : List Char} (k : Nat) (h : hasTriple l = false) :
    hasTriple (l.drop k) = false := by
  induction k generalizing l with
  | zero => simpa using h
  | succ k ih =>
    cases l with
    | nil => simpa using h
    | cons c rest => exact ih (hasTriple_tail h)

theorem matchLen_none_of_no_triple {l : List Char} {bol : Bool}
    (h : hasTriple l = false) : matchLen l bol = none := by
  unfold matchLen alt1Len alt2Len
  have h1 : startsWithTriple l = false := by
    cases hs : startsWithTriple l with
    | false => rfl
    | true => rw [hasTriple_of_startsWithTriple hs] at h; cases h
  have h2 : startsWithTriple (l.drop (countSpaces l)) = false := by
    cases hs : startsWithTriple (l.drop (countSpaces l)) with
    | false => rfl
    | true =>
      have ht := hasTriple_of_startsWithTriple hs
      rw [hasTriple_drop (countSpaces l) h] at ht
      cases ht
  simp [h1, h2]

theorem subAux_eq_self_of_no_triple {l : List Char} (bol : Bool)
    (h : hasTriple l = false) : subAux l bol 0 = l := by
  induction l generalizing bol with
  | nil => rfl
  | cons c rest ih =>
    rw [subAux_cons_none (matchLen_none_of_no_triple h), ih _ (hasTriple_tail h)]

theorem no_triple_of_no_backtick {l : List Char} (h : backtick ∉ l) :
    hasTriple l = false := by
  induction l with
  | nil => rfl
  | cons c rest ih =>
    have hc : ¬(c = backtick) := fun hc => h (hc ▸ List.mem_cons_self c rest)
    have hr : backtick ∉ rest := fun hr => h (List.mem_cons_of_mem c hr)
    simp only [hasTriple, Bool.or_eq_false_iff]
    refine ⟨?_, ih hr⟩
    cases rest with
    | nil => rfl
    | cons b2 rest2 =>
      cases rest2 with
      | nil => rfl
      | cons b3 rest3 =>
        simp only [startsWithTriple, Bool.and_eq_false_iff]
        left; left
        simpa using hc

/-! ### Explicit word-bounded occurrences are found by the keyword scan -/

theorem boundedMatchAt_of_occ {l kw pre w post : List Char}
    (hl : l = pre ++ w ++ post) (hmap : w.map Char.toLower = kw)
    (hleft : LeftBoundary pre) (hright : RightBoundary post) :
    boundedMatchAt l kw pre.length = true := by
  have hwlen : kw.length = w.length := by rw [← hmap, List.length_map]
  have hl' : l = pre ++ (w ++ post) := by rw [hl, List.append_assoc]
  have h1 : (l.drop pre.length).take kw.length = w := by
    rw [hl', List.drop_left, hwlen, List.take_left]
  have h2 : (pre.length == 0 || !wordCharAt l (pre.length - 1)) = true := by
    cases hpre : pre.getLast? with
    | none =>
      rw [List.getLast?_eq_none_iff] at hpre
      subst hpre; rfl
    | some c =>
      have hprene : pre ≠ [] := by
        intro hnil; rw [hnil] at hpre; cases hpre
      have hpos : 0 < pre.length := List.length_pos.mpr hprene
      have hg : l[pre.length - 1]? = some c := by
        rw [hl', List.getElem?_append_left (by omega), ← List.getLast?_eq_getElem?]
        exact hpre
      have hw : wordCharAt l (pre.length - 1) = false := by
        unfold wordCharAt; rw [hg]; exact hleft c hpre
      simp [hw]
  have h3 : wordCharAt l (pre.length + kw.length) = false := by
    have hg : l[pre.length + kw.length]? = post[0]? := by
      rw [hl, hwlen, ← List.length_append,
        List.getElem?_append_right (Nat.le_refl _), Nat.sub_self]
    unfold wordCharAt
    rw [hg]
    cases post with
    | nil => rfl
    | cons d rest => simpa using hright d rfl
  unfold boundedMatchAt
  rw [h1, hmap, h3]
  simp only [beq_self_eq_true, Bool.true_and, Bool.not_false, Bool.and_true]
  exact h2

theorem forbiddenSearch_of_occ {l kw : List Char} (hkw : kw ∈ forbiddenKeywords)
    (h : WordBoundedOcc l kw) : forbiddenSearch l = true := by
  obtain ⟨pre, w, post, hl, hmap, hleft, hright⟩ := h
  unfold forbiddenSearch
  rw [List.any_eq_true]
  refine ⟨kw, hkw, ?_⟩
  rw [List.any_eq_true]
  refine ⟨pre.length, List.mem_range.mpr ?_, boundedMatchAt_of_occ hl hmap hleft hright⟩
  have : l.length = pre.length + (w.length + post.length) := by
    rw [hl]; simp [List.length_append]
  omega

theorem not_occ_of_forbiddenSearch_false {l kw : List Char}
    (hkw : kw ∈ forbiddenKeywords) (h : forbiddenSearch l = false) :
    ¬ WordBoundedOcc l kw := by
  intro hocc
  rw [forbiddenSearch_of_occ hkw hocc] at h
  cases h

/-! ### Case analysis of the validator -/

theorem validate_ok_inv {sql v : List Char}
    (h : clean_and_validate_sql sql = .ok v) :
    v = clean_sql sql ∧ startsSelectLower v = true ∧ forbiddenSearch v = false ∧
      v.contains ';' = false := by
  simp only [clean_and_validate_sql] at h
  split at h
  · cases h
  · split at h
    · cases h
    · split at h
      · cases h
      · rename_i h1 h2 h3
        cases h
        refine ⟨rfl, ?_, ?_, ?_⟩
        · simpa using h1
        · simpa using h2
        · simpa using h3

theorem validate_notSelect {sql : List Char}
    (h : startsSelectLower (clean_sql sql) = false) :
    clean_and_validate_sql sql = .error (.notSelect ((clean_sql sql).take 40)) := by
  simp only [clean_and_validate_sql]
  rw [if_pos h]

theorem validate_multi_iff (sql : List Char) :
    clean_and_validate_sql sql = .error .multipleStatements ↔
      startsSelectLower (clean_sql sql) = true ∧ forbiddenSearch (clean_sql sql) = false ∧
        (clean_sql sql).contains ';' = true := by
  simp only [clean_and_validate_sql]
  constructor
  · intro h
    split at h
    · cases h
    · split at h
      · cases h
      · split at h
        · rename_i h1 h2 h3
          exact ⟨by simpa using h1, by simpa using h2, h3⟩
        · cases h
  · rintro ⟨h1, h2, h3⟩
    rw [if_neg (by simp [h1]), if_neg (by simp [h2]), if_pos h3]

/-! ### Sorting lemmas for the db_tool query semantics -/

theorem mem_insertByDateDesc {a o : Order} {l : List Order} :
    a ∈ insertByDateDesc o l ↔ a = o ∨ a ∈ l := by
  induction l with
  | nil => simp [insertByDateDesc]
  | cons x xs ih =>
    by_cases h : x.order_date ≤ o.order_date
    · simp [insertByDateDesc, h]
    · simp only [insertByDateDesc, if_neg h, List.mem_cons, ih]
      tauto

theorem mem_sortByDateDesc {a : Order} {l : List Order} :
    a ∈ sortByDateDesc l ↔ a ∈ l := by
  induction l with
  | nil => simp [sortByDateDesc]
  | cons x xs ih => simp [sortByDateDesc, mem_insertByDateDesc, ih]

theorem pairwise_insertByDateDesc {o : Order} {l : List Order}
    (h : l.Pairwise fun a b => b.order_date ≤ a.order_date) :
    (insertByDateDesc o l).Pairwise fun a b => b.order_date ≤ a.order_date := by
  induction l with
  | nil => simp [insertByDateDesc]
  | cons x xs ih =>
    rcases List.pairwise_cons.mp h with ⟨hx, hxs⟩
    by_cases hle : x.order_date ≤ o.order_date
    · rw [insertByDateDesc, if_pos hle]
      refine List.pairwise_cons.mpr ⟨?_, h⟩
      intro y hy
      rcases List.mem_cons.mp hy with hyx | hyxs
      · exact hyx ▸ hle
      · exact le_trans (hx y hyxs) hle
    · rw [insertByDateDesc, if_neg hle]
      refine List.pairwise_cons.mpr ⟨?_, ih hxs⟩
      intro y hy
      rcases mem_insertByDateDesc.mp hy with hyo | hyxs
      · exact hyo ▸ le_of_not_le hle
      · exact hx y hyxs

theorem pairwise_sortByDateDesc (l : List Order) :
    (sortByDateDesc l).Pairwise fun a b => b.order_date ≤ a.order_date := by
  induction l with
  | nil => simp [sortByDateDesc]
  | cons x xs ih => exact pairwise_insertByDateDesc ih

theorem orders_query_spec (uid : Int) (table : List Order) :
    (orders_query uid table).length ≤ 5 ∧
      (∀ o ∈ orders_query uid table, o.user_id = uid) ∧
      (orders_query uid table).Pairwise fun a b => b.order_date ≤ a.order_date := by
  refine ⟨List.length_take_le .., ?_, ?_⟩
  · intro o ho
    have h1 : o ∈ sortByDateDesc (table.filter fun o => o.user_id = uid) :=
      List.take_subset _ _ ho
    have h2 := mem_sortByDateDesc.mp h1
    exact of_decide_eq_true (List.mem_filter.mp h2).2
  · exact (pairwise_sortByDateDesc _).sublist (List.take_sublist _ _)

theorem listStartsWith_append (p r : List Char) : listStartsWith (p ++ r) p = true := by
  unfold listStartsWith
  rw [List.take_left]
  exact beq_self_eq_true p

/-! ### Characters whose lowercase form is a letter are untouched by cleaning -/

theorem safe_of_toLower_letter {c : Char} (h1 : 'a' ≤ c.toLower) (h2 : c.toLower ≤ 'z') :
    c ≠ backtick ∧ isPySpace c = false ∧ (c == ';') = false := by
  refine ⟨?_, ?_, ?_⟩
  · rintro rfl
    revert h1 h2; decide
  · cases hsp : isPySpace c with
    | false => rfl
    | true =>
      exfalso
      simp only [isPySpace, Bool.or_eq_true, beq_iff_eq] at hsp
      obtain ((((h | h) | h) | h) | h) | h := hsp <;> subst h <;> revert h1 h2 <;> decide
  · cases hsemi : (c == ';') with
    | false => rfl
    | true =>
      exfalso
      have : c = ';' := beq_iff_eq.mp hsemi
      subst this; revert h1 h2; decide

theorem safeW_of_goodKw {kw w : List Char} (hg : goodKw kw = true)
    (hmap : w.map Char.toLower = kw) : SafeW w := by
  unfold goodKw at hg
  rw [Bool.and_eq_true] at hg
  obtain ⟨hhead, hall⟩ := hg
  have hrange : ∀ c ∈ w, 'a' ≤ c.toLower ∧ c.toLower ≤ 'z' := by
    intro c hc
    have : c.toLower ∈ kw := by
      rw [← hmap]; exact List.mem_map_of_mem Char.toLower hc
    have hb := List.all_eq_true.mp hall _ this
    rw [Bool.and_eq_true] at hb
    exact ⟨of_decide_eq_true hb.1, of_decide_eq_true hb.2⟩
  refine ⟨?_, ?_, ?_⟩
  · intro hnil
    subst hnil
    simp only [List.map_nil] at hmap
    rw [← hmap] at hhead
    cases hhead
  · intro c hc
    exact safe_of_toLower_letter (hrange c hc).1 (hrange c hc).2
  · intro c hc
    have hkwh : kw.head? = some c.toLower := by
      rw [← hmap, List.head?_map, hc]; rfl
    cases kw with
    | nil => cases hkwh
    | cons k kt =>
      have hck : c.toLower = k := by
        rw [List.head?_cons] at hkwh
        exact (Option.some.inj hkwh).symm
      simp only [Bool.not_eq_true', Bool.or_eq_false_iff, beq_eq_false_iff_ne] at hhead
      rw [hck]
      exact ⟨hhead.1.1, hhead.1.2, hhead.2⟩

theorem goodKw_forbidden : ∀ kw ∈ forbiddenKeywords, goodKw kw = true := by decide

/-! ### Elementary facts about the scan components -/

theorem countSpaces_le_length (l : List Char) : countSpaces l ≤ l.length := by
  induction l with
  | nil => exact Nat.le_refl 0
  | cons c rest ih =>
    simp only [countSpaces]
    split
    · exact Nat.succ_le_succ ih
    · exact Nat.zero_le _

theorem countSpaces_append_nonspace {c : Char} (hc : isPySpace c = false)
    (a r : List Char) : countSpaces (a ++ c :: r) ≤ a.length := by
  induction a with
  | nil => simp [countSpaces, hc]
  | cons x a' ih =>
    simp only [List.cons_append, countSpaces]
    split
    · exact Nat.succ_le_succ ih
    · exact Nat.zero_le _

theorem triple_decomp {m : List Char} (h : startsWithTriple m = true) :
    ∃ rest, m = backtick :: backtick :: backtick :: rest := by
  match m with
  | [] => cases h
  | [x] => cases h
  | [x, y] => cases h
  | x :: y :: z :: rest =>
    simp only [startsWithTriple, Bool.and_eq_true, beq_iff_eq] at h
    obtain ⟨⟨hx, hy⟩, hz⟩ := h
    exact ⟨rest, by rw [hx, hy, hz]⟩

theorem startsWithTriple_length {m : List Char} (h : startsWithTriple m = true) :
    3 ≤ m.length := by
  obtain ⟨rest, hr⟩ := triple_decomp h
  rw [hr]
  simp only [List.length_cons]
  omega

theorem triple_head_of_short {a : List Char} {c : Char} {r : List Char}
    (h : startsWithTriple (a ++ c :: r) = true) (hlen : a.length < 3) : c = backtick := by
  obtain ⟨rest, hr⟩ := triple_decomp h
  match a, hlen with
  | [], _ => exact (List.cons.inj hr).1
  | [x], _ => exact (List.cons.inj (List.cons.inj hr).2).1
  | [x, y], _ => exact (List.cons.inj (List.cons.inj (List.cons.inj hr).2).2).1

theorem startsWithTriple_of_append {a b : List Char} (h : startsWithTriple (a ++ b) = true)
    (hlen : 3 ≤ a.length) : startsWithTriple a = true := by
  match a, hlen with
  | x :: y :: z :: a', _ =>
    simpa only [startsWithTriple, List.cons_append] using h

theorem sqlTag_head_of_short {a : List Char} {c : Char} {r : List Char}
    (h : startsWithSqlTag (a ++ c :: r) = true) (hlen : a.length < 3) :
    c.toLower = 's' ∨ c.toLower = 'q' ∨ c.toLower = 'l' := by
  unfold startsWithSqlTag at h
  rw [beq_iff_eq] at h
  match a, hlen with
  | [], _ =>
    simp only [List.nil_append, List.take_succ_cons, List.map_cons] at h
    exact Or.inl (List.cons.inj h).1
  | [x], _ =>
    simp only [List.cons_append, List.nil_append, List.take_succ_cons, List.map_cons] at h
    exact Or.inr (Or.inl (List.cons.inj (List.cons.inj h).2).1)
  | [x, y], _ =>
    simp only [List.cons_append, List.nil_append, List.take_succ_cons, List.map_cons] at h
    exact Or.inr (Or.inr (List.cons.inj (List.cons.inj (List.cons.inj h).2).2).1)

/-! ### Shape of a match -/

theorem alt1_bol {l : List Char} {bol : Bool} {n : Nat}
    (h : alt1Len l bol = some n) : bol = true := by
  cases bol with
  | true => rfl
  | false => simp [alt1Len] at h

theorem alt1_triple {l : List Char} {bol : Bool} {n : Nat}
    (h : alt1Len l bol = some n) : startsWithTriple l = true := by
  cases hs : startsWithTriple l with
  | true => rfl
  | false => simp [alt1Len, hs] at h

theorem alt1_len {l : List Char} {bol : Bool} {n : Nat}
    (h : alt1Len l bol = some n) :
    (startsWithSqlTag (l.drop 3) = true ∧ n = 6 + countSpaces (l.drop 6)) ∨
      (startsWithSqlTag (l.drop 3) = false ∧ n = 3 + countSpaces (l.drop 3)) := by
  unfold alt1Len at h
  split at h
  · split at h
    · exact Or.inl ⟨by assumption, (Option.some.inj h).symm⟩
    · rename_i hs
      exact Or.inr ⟨Bool.not_eq_true _ ▸ Bool.of_not_eq_true hs, (Option.some.inj h).symm⟩
  · cases h

theorem alt2_decomp {l : List Char} {n : Nat} (h : alt2Len l = some n) :
    ∃ sp rest, l = sp ++ ([backtick, backtick, backtick] ++ rest) ∧
      sp.length = countSpaces l ∧ n = countSpaces l + 3 ∧
      (rest = [] ∨ ∃ r', rest = '\n' :: r') := by
  unfold alt2Len at h
  split at h
  · rename_i hcond
    rw [Bool.and_eq_true] at hcond
    obtain ⟨htrip, hdollar⟩ := hcond
    obtain ⟨rest, hrest⟩ := triple_decomp htrip
    have hksub : countSpaces l ≤ l.length := countSpaces_le_length l
    refine ⟨l.take (countSpaces l), rest, ?_, ?_, (Option.some.inj h).symm, ?_⟩
    · conv_lhs => rw [← List.take_append_drop (countSpaces l) l]
      rw [hrest]
      rfl
    · rw [List.length_take]
      omega
    · rw [hrest] at hdollar
      have hdollar' : dollarAt rest = true := hdollar
      cases rest with
      | nil => exact Or.inl rfl
      | cons d r' =>
        refine Or.inr ⟨r', ?_⟩
        unfold dollarAt at hdollar'
        rw [beq_iff_eq.mp hdollar']
  · cases h

theorem matchLen_cases {l : List Char} {bol : Bool} {n : Nat}
    (h : matchLen l bol = some n) :
    alt1Len l bol = some n ∨ (alt1Len l bol = none ∧ alt2Len l = some n) := by
  unfold matchLen at h
  split at h
  · rename_i m hm
    exact Or.inl (by rw [hm, h])
  · rename_i hm
    exact Or.inr ⟨hm, h⟩

theorem matchLen_pos {l : List Char} {bol : Bool} {n : Nat}
    (h : matchLen l bol = some n) : 3 ≤ n := by
  rcases matchLen_cases h with h1 | ⟨_, h2⟩
  · rcases alt1_len h1 with ⟨_, hn⟩ | ⟨_, hn⟩ <;> omega
  · obtain ⟨sp, rest, _, _, hn, _⟩ := alt2_decomp h2
    omega

theorem matchLen_none_of_safe_head {c : Char} {l : List Char} {bol : Bool}
    (h1 : c ≠ backtick) (h2 : isPySpace c = false) : matchLen (c :: l) bol = none := by
  have ht : startsWithTriple (c :: l) = false := by
    cases hs : startsWithTriple (c :: l) with
    | false => rfl
    | true =>
      obtain ⟨rest, hr⟩ := triple_decomp hs
      exact absurd (List.cons.inj hr).1 h1
  have hcs : countSpaces (c :: l) = 0 := by simp [countSpaces, h2]
  unfold matchLen alt1Len alt2Len
  rw [ht, hcs]
  simp [ht]

/-! ### Consuming a match in the scan -/

theorem lastBol_cons (x : Char) (a' : List Char) (bol : Bool) :
    lastBol (x :: a') bol = lastBol a' (x == '\n') := by
  cases a' with
  | nil => rfl
  | cons y a'' =>
    cases hg : (y :: a'').getLast? with
    | none => exact absurd (List.getLast?_eq_none_iff.mp hg) (by simp)
    | some d => simp [lastBol, List.getLast?_cons_cons, hg]

theorem subAux_drain : ∀ (a rest : List Char) (bol : Bool) (k : Nat), k = a.length →
    subAux (a ++ rest) bol k = subAux rest (lastBol a bol) 0 := by
  intro a
  induction a with
  | nil =>
    intro rest bol k hk
    subst hk; rfl
  | cons x a' ih =>
    intro rest bol k hk
    subst hk
    show subAux (x :: (a' ++ rest)) bol (a'.length + 1) = _
    rw [subAux_cons_skip, ih rest (x == '\n') a'.length rfl, lastBol_cons]

theorem subAux_match_drain {c : Char} {l : List Char} {bol : Bool} {n : Nat}
    (h : matchLen (c :: l) bol = some n) (hlen : n ≤ (c :: l).length) :
    subAux (c :: l) bol 0 =
      subAux ((c :: l).drop n) (lastBol ((c :: l).take n) bol) 0 := by
  have h3 : 3 ≤ n := matchLen_pos h
  obtain ⟨m, rfl⟩ : ∃ m, n = m + 1 := ⟨n - 1, by omega⟩
  rw [subAux_cons_match h]
  simp only [Nat.add_sub_cancel]
  have hlt : m ≤ l.length := by
    simp only [List.length_cons] at hlen
    omega
  conv_lhs => rw [show l = l.take m ++ l.drop m from (List.take_append_drop _ _).symm]
  rw [subAux_drain (l.take m) (l.drop m) (c == '\n') m (by rw [List.length_take]; omega),
    List.take_succ_cons, List.drop_succ_cons, lastBol_cons]

theorem getLast?_append_some {l₁ l₂ : List Char} {d : Char}
    (h : l₂.getLast? = some d) : (l₁ ++ l₂).getLast? = some d := by
  rw [List.getLast?_append, h]
  rfl

/-- A match starting inside `pre` of the scanned text `pre ++ w ++ post`, for
a keyword body `w` that no fence pattern can touch, lies entirely inside
`pre`; if it ends exactly at `w` it is a first-alternative match (so the
line-start anchor held), and if its last character is a newline it is also a
first-alternative match (a second-alternative match ends in a backtick). -/
theorem matchLen_in_pre {pre w post : List Char} {bol : Bool} {n : Nat}
    (hw : SafeW w) (h : matchLen (pre ++ (w ++ post)) bol = some n) :
    n ≤ pre.length ∧ (pre.drop n = [] → bol = true) ∧
      ((pre.take n).getLast? = some '\n' → bol = true) := by
  obtain ⟨hne, hsafe, hhead⟩ := hw
  obtain ⟨wh, wt, rfl⟩ : ∃ wh wt, w = wh :: wt := by
    cases w with
    | nil => exact absurd rfl hne
    | cons a b => exact ⟨a, b, rfl⟩
  have hwh := hsafe wh (List.mem_cons_self _ _)
  rcases matchLen_cases h with h1 | ⟨_, h2⟩
  · have hbol : bol = true := alt1_bol h1
    have htrip := alt1_triple h1
    refine ⟨?_, fun _ => hbol, fun _ => hbol⟩
    have hpre3 : 3 ≤ pre.length := by
      by_contra hlt
      push_neg at hlt
      exact absurd
        (triple_head_of_short (a := pre) (c := wh) (r := wt ++ post) htrip hlt) hwh.1
    rcases alt1_len h1 with ⟨hsql, hn⟩ | ⟨_, hn⟩
    · have hpre6 : 6 ≤ pre.length := by
        by_contra hlt
        push_neg at hlt
        have hd3 : (pre ++ ((wh :: wt) ++ post)).drop 3 = pre.drop 3 ++ ((wh :: wt) ++ post) :=
          List.drop_append_of_le_length hpre3
        rw [hd3] at hsql
        have hlen3 : (pre.drop 3).length < 3 := by rw [List.length_drop]; omega
        rcases sqlTag_head_of_short (a := pre.drop 3) (c := wh) (r := wt ++ post) hsql hlen3
          with h' | h' | h'
        · exact absurd h' (hhead wh rfl).1
        · exact absurd h' (hhead wh rfl).2.1
        · exact absurd h' (hhead wh rfl).2.2
      have hd6 : (pre ++ ((wh :: wt) ++ post)).drop 6 = pre.drop 6 ++ ((wh :: wt) ++ post) :=
        List.drop_append_of_le_length hpre6
      rw [hd6] at hn
      have hcs : countSpaces (pre.drop 6 ++ ((wh :: wt) ++ post)) ≤ (pre.drop 6).length :=
        countSpaces_append_nonspace hwh.2.1 (pre.drop 6) (wt ++ post)
      rw [List.length_drop] at hcs
      omega
    · have hd3 : (pre ++ ((wh :: wt) ++ post)).drop 3 = pre.drop 3 ++ ((wh :: wt) ++ post) :=
        List.drop_append_of_le_length hpre3
      rw [hd3] at hn
      have hcs : countSpaces (pre.drop 3 ++ ((wh :: wt) ++ post)) ≤ (pre.drop 3).length :=
        countSpaces_append_nonspace hwh.2.1 (pre.drop 3) (wt ++ post)
      rw [List.length_drop] at hcs
      omega
  · obtain ⟨sp, rest, hLsplit, hsplen, hn, hrest⟩ := alt2_decomp h2
    have hk : countSpaces (pre ++ ((wh :: wt) ++ post)) ≤ pre.length :=
      countSpaces_append_nonspace hwh.2.1 pre (wt ++ post)
    have hdrop_eq : (pre ++ ((wh :: wt) ++ post)).drop
        (countSpaces (pre ++ ((wh :: wt) ++ post))) = [backtick, backtick, backtick] ++ rest := by
      have hbase : (sp ++ ([backtick, backtick, backtick] ++ rest)).drop sp.length
          = [backtick, backtick, backtick] ++ rest := List.drop_left _ _
      rw [hsplen, ← hLsplit] at hbase
      exact hbase
    have hk3 : countSpaces (pre ++ ((wh :: wt) ++ post)) + 3 ≤ pre.length := by
      by_contra hlt
      push_neg at hlt
      have hdk : (pre ++ ((wh :: wt) ++ post)).drop
          (countSpaces (pre ++ ((wh :: wt) ++ post)))
          = pre.drop (countSpaces (pre ++ ((wh :: wt) ++ post))) ++ ((wh :: wt) ++ post) :=
        List.drop_append_of_le_length hk
      rw [hdk] at hdrop_eq
      have htrip2 : startsWithTriple
          (pre.drop (countSpaces (pre ++ ((wh :: wt) ++ post))) ++ ((wh :: wt) ++ post))
          = true := by
        rw [hdrop_eq]
        rfl
      have hlen' : (pre.drop (countSpaces (pre ++ ((wh :: wt) ++ post)))).length < 3 := by
        rw [List.length_drop]
        omega
      exact absurd
        (triple_head_of_short (c := wh) (r := wt ++ post) htrip2 hlen') hwh.1
    refine ⟨by omega, ?_, ?_⟩
    · intro hdropnil
      exfalso
      have hLd : (pre ++ ((wh :: wt) ++ post)).drop n = pre.drop n ++ ((wh :: wt) ++ post) :=
        List.drop_append_of_le_length (by omega)
      have hLd2 : (pre ++ ((wh :: wt) ++ post)).drop n = rest := by
        have hbase : (sp ++ ([backtick, backtick, backtick] ++ rest)).drop (sp.length + 3)
            = rest := by
          rw [List.drop_append]
          rfl
        rw [hsplen, ← hLsplit, ← hn] at hbase
        exact hbase
      rw [hdropnil, List.nil_append] at hLd
      rw [hLd] at hLd2
      rcases hrest with hre | ⟨r', hre⟩
      · rw [hre] at hLd2
        simp at hLd2
      · rw [hre] at hLd2
        have hwhn : wh = '\n' := (List.cons.inj hLd2).1
        rw [hwhn] at hwh
        exact absurd hwh.2.1 (by decide)
    · intro hlast
      exfalso
      have htk : (pre ++ ((wh :: wt) ++ post)).take n = pre.take n :=
        List.take_append_of_le_length (by omega)
      have htk2 : (pre ++ ((wh :: wt) ++ post)).take n
          = sp ++ [backtick, backtick, backtick] := by
        have hbase : (sp ++ ([backtick, backtick, backtick] ++ rest)).take (sp.length + 3)
            = sp ++ [backtick, backtick, backtick] := by
          rw [List.take_append]
          rfl
        rw [hsplen, ← hLsplit, ← hn] at hbase
        exact hbase
      rw [htk] at htk2
      rw [htk2] at hlast
      have hbt : (sp ++ [backtick, backtick, backtick]).getLast? = some backtick :=
        getLast?_append_some (by rfl)
      rw [hbt] at hlast
      exact absurd (Option.some.inj hlast) (by decide)

/-! ### The scan copies a safe occurrence body verbatim -/

theorem subAux_through : ∀ (w : List Char),
    (∀ c ∈ w, c ≠ backtick ∧ isPySpace c = false ∧ (c == ';') = false) → w ≠ [] →
    ∀ (post : List Char) (bol : Bool),
    subAux (w ++ post) bol 0 = w ++ subAux post false 0 := by
  intro w
  induction w with
  | nil => intro _ hne; exact absurd rfl hne
  | cons c w' ih =>
    intro hsafe _ post bol
    have hc := hsafe c (List.mem_cons_self _ _)
    have hm : matchLen (c :: (w' ++ post)) bol = none :=
      matchLen_none_of_safe_head hc.1 hc.2.1
    show subAux (c :: (w' ++ post)) bol 0 = _
    rw [subAux_cons_none hm]
    have hcn : (c == '\n') = false := by
      rw [beq_eq_false_iff_ne]
      intro hEq
      rw [hEq] at hc
      exact absurd hc.2.1 (by decide)
    rw [hcn]
    cases w' with
    | nil => rfl
    | cons d w'' =>
      rw [ih (fun x hx => hsafe x (List.mem_cons_of_mem c hx)) (by simp) post false]
      rfl

/-! ### The scan keeps a non-word character (or nothing) at the front -/

theorem rightBoundary_nil : RightBoundary [] := fun _ hc => by simp at hc

theorem rightBoundary_newline (r : List Char) : RightBoundary ('\n' :: r) := by
  intro c hc
  rw [List.head?_cons] at hc
  rw [← Option.some.inj hc]
  decide

theorem subAux_post_boundary : ∀ (N : Nat) (post : List Char), post.length ≤ N →
    RightBoundary post → RightBoundary (subAux post false 0) := by
  intro N
  induction N with
  | zero =>
    intro post hlen hb
    have : post = [] := List.eq_nil_of_length_eq_zero (Nat.le_zero.mp hlen)
    subst this
    exact hb
  | succ N ih =>
    intro post hlen hb
    cases post with
    | nil => exact hb
    | cons c rest =>
      cases hm : matchLen (c :: rest) false with
      | none =>
        rw [subAux_cons_none hm]
        intro d hd
        rw [List.head?_cons] at hd
        rw [← Option.some.inj hd]
        exact hb c rfl
      | some n =>
        have halt2 : alt2Len (c :: rest) = some n := by
          rcases matchLen_cases hm with h1 | ⟨_, h2⟩
          · exact absurd (alt1_bol h1) (by simp)
          · exact h2
        obtain ⟨sp, tl, hLsplit, hsplen, hn, htl⟩ := alt2_decomp halt2
        have hlenL : (c :: rest).length = sp.length + (3 + tl.length) := by
          rw [hLsplit]
          simp [List.length_append]
          omega
        have hlenc : (c :: rest).length = rest.length + 1 := rfl
        have hnle : n ≤ (c :: rest).length := by omega
        rw [subAux_match_drain hm hnle]
        have htk : (c :: rest).take n = sp ++ [backtick, backtick, backtick] := by
          rw [hn, ← hsplen, hLsplit, List.take_append]
          rfl
        have hdr : (c :: rest).drop n = tl := by
          rw [hn, ← hsplen, hLsplit, List.drop_append]
          rfl
        rw [htk, hdr]
        have hlb : lastBol (sp ++ [backtick, backtick, backtick]) false = false := by
          unfold lastBol
          rw [getLast?_append_some
            (show ([backtick, backtick, backtick] : List Char).getLast? = some backtick
              from rfl)]
          rfl
        rw [hlb]
        refine ih tl (by omega) ?_
        rcases htl with h' | ⟨r', h'⟩
        · subst h'; exact rightBoundary_nil
        · subst h'; exact rightBoundary_newline r'

/-! ### The scan of the text before an occurrence keeps its left boundary -/

theorem subAux_pre : ∀ (N : Nat) (pre : List Char), pre.length ≤ N →
    ∀ (w post : List Char) (bol : Bool), SafeW w →
    ∃ pre2, subAux (pre ++ (w ++ post)) bol 0 = pre2 ++ (w ++ subAux post false 0) ∧
      (pre2 = [] → pre = [] ∨ bol = true) ∧
      (∀ c, pre2.getLast? = some c → c = '\n' ∨ pre.getLast? = some c) := by
  intro N
  induction N with
  | zero =>
    intro pre hlen w post bol hw
    have : pre = [] := List.eq_nil_of_length_eq_zero (Nat.le_zero.mp hlen)
    subst this
    exact ⟨[], by simpa using subAux_through w hw.2.1 hw.1 post bol,
      fun _ => Or.inl rfl, fun c hc => by simp at hc⟩
  | succ N ih =>
    intro pre hlen w post bol hw
    cases pre with
    | nil =>
      exact ⟨[], by simpa using subAux_through w hw.2.1 hw.1 post bol,
        fun _ => Or.inl rfl, fun c hc => by simp at hc⟩
    | cons c pr =>
      have hply : pr.length ≤ N := by
        have : (c :: pr).length = pr.length + 1 := rfl
        omega
      cases hm : matchLen (c :: (pr ++ (w ++ post))) bol with
      | none =>
        obtain ⟨pre2', heq, hc1, hc2⟩ := ih pr hply w post (c == '\n') hw
        refine ⟨c :: pre2', ?_, ?_, ?_⟩
        · show subAux (c :: (pr ++ (w ++ post))) bol 0 = _
          rw [subAux_cons_none hm, heq]
          rfl
        · intro hfalse
          exact absurd hfalse (List.cons_ne_nil _ _)
        · intro d hd
          cases hp2 : pre2' with
          | nil =>
            rw [hp2] at hd
            have hdc : c = d := by simpa using hd
            rcases hc1 hp2 with hpr | hbol
            · subst hpr
              exact Or.inr (by rw [← hdc]; rfl)
            · exact Or.inl (by rw [← hdc]; exact beq_iff_eq.mp hbol)
          | cons e pre2'' =>
            rw [hp2, List.getLast?_cons_cons] at hd
            have hd' : pre2'.getLast? = some d := by rw [hp2]; exact hd
            rcases hc2 d hd' with h' | h'
            · exact Or.inl h'
            · right
              cases pr with
              | nil => simp at h'
              | cons f pr' =>
                rw [List.getLast?_cons_cons]
                exact h'
      | some n =>
        have hm' : matchLen ((c :: pr) ++ (w ++ post)) bol = some n := hm
        obtain ⟨hn_le, hdrop_bol, hlast_bol⟩ := matchLen_in_pre hw hm'
        have h3 : 3 ≤ n := matchLen_pos hm'
        have hnle2 : n ≤ (c :: (pr ++ (w ++ post))).length := by
          have hlapp : (c :: (pr ++ (w ++ post))).length
              = (c :: pr).length + (w ++ post).length := by
            simp [List.length_append]
            omega
          omega
        have htk : (c :: (pr ++ (w ++ post))).take n = (c :: pr).take n :=
          List.take_append_of_le_length hn_le
        have hdr : (c :: (pr ++ (w ++ post))).drop n = (c :: pr).drop n ++ (w ++ post) :=
          List.drop_append_of_le_length hn_le
        have hlen3 : ((c :: pr).drop n).length ≤ N := by
          rw [List.length_drop]
          have : (c :: pr).length = pr.length + 1 := rfl
          omega
        obtain ⟨pre2, heq, hc1, hc2⟩ :=
          ih ((c :: pr).drop n) hlen3 w post
            (lastBol ((c :: (pr ++ (w ++ post))).take n) bol) hw
        refine ⟨pre2, ?_, ?_, ?_⟩
        · show subAux (c :: (pr ++ (w ++ post))) bol 0 = _
          rw [subAux_match_drain hm hnle2, hdr, heq]
        · intro hp2
          rcases hc1 hp2 with h3' | hb3
          · exact Or.inr (hdrop_bol h3')
          · right
            rw [htk] at hb3
            revert hb3
            unfold lastBol
            cases hg : ((c :: pr).take n).getLast? with
            | none => intro hb3; exact hb3
            | some ch =>
              intro hb3
              exact hlast_bol (by rw [hg, beq_iff_eq.mp hb3])
        · intro d hd
          rcases hc2 d hd with h' | h'
          · exact Or.inl h'
          · right
            have hsplit2 : (c :: pr) = (c :: pr).take n ++ (c :: pr).drop n :=
              (List.take_append_drop _ _).symm
            rw [hsplit2]
            exact getLast?_append_some h'

/-! ### Word-bounded occurrences survive the fence-removal scan -/

theorem sub_preserves_occ {l kw : List Char} (bol : Bool) (hgood : goodKw kw = true)
    (h : WordBoundedOcc l kw) : WordBoundedOcc (subAux l bol 0) kw := by
  obtain ⟨pre, w, post, hl, hmap, hleft, hright⟩ := h
  have hw : SafeW w := safeW_of_goodKw hgood hmap
  obtain ⟨pre2, heq, _, hc2⟩ := subAux_pre pre.length pre (Nat.le_refl _) w post bol hw
  refine ⟨pre2, w, subAux post false 0, ?_, hmap, ?_, ?_⟩
  · have hl' : l = pre ++ (w ++ post) := by rw [hl, List.append_assoc]
    rw [hl', heq, List.append_assoc]
  · intro d hd
    rcases hc2 d hd with h' | h'
    · rw [h']; decide
    · exact hleft d h'
  · exact subAux_post_boundary post.length post (Nat.le_refl _) hright

/-! ### Word-bounded occurrences survive trimming and semicolon stripping -/

theorem mem_of_getLast?_eq {l : List Char} {c : Char} (h : l.getLast? = some c) : c ∈ l := by
  induction l with
  | nil => cases h
  | cons a l' ih =>
    cases l' with
    | nil =>
      have : a = c := by simpa using h
      rw [this]
      exact List.mem_cons_self _ _
    | cons b l'' =>
      rw [List.getLast?_cons_cons] at h
      exact List.mem_cons_of_mem a (ih h)

theorem dropWhile_append_nonhead {p : Char → Bool} {c : Char} (hc : p c = false)
    (a r : List Char) : (a ++ c :: r).dropWhile p = a.dropWhile p ++ c :: r := by
  induction a with
  | nil => simp [List.dropWhile_cons, hc]
  | cons x a' ih =>
    simp only [List.cons_append, List.dropWhile_cons]
    split
    · exact ih
    · rfl

theorem getLast?_dropWhile_some {p : Char → Bool} {l : List Char} {c : Char}
    (h : (l.dropWhile p).getLast? = some c) : l.getLast? = some c := by
  have hsplit : l = l.takeWhile p ++ l.dropWhile p :=
    (List.takeWhile_append_dropWhile p l).symm
  rw [hsplit]
  exact getLast?_append_some h

theorem dropTrailing_append_of_last {p : Char → Bool} {x : List Char} {c : Char}
    (hx : x.getLast? = some c) (hc : p c = false) (post : List Char) :
    dropTrailing p (x ++ post) = x ++ dropTrailing p post := by
  unfold dropTrailing
  rw [List.reverse_append]
  obtain ⟨rest, hrev⟩ : ∃ rest, x.reverse = c :: rest := by
    cases hxr : x.reverse with
    | nil =>
      have : x = [] := by simpa using congrArg List.reverse hxr
      rw [this] at hx
      cases hx
    | cons d rest =>
      have hhd : x.reverse.head? = some d := by rw [hxr]; rfl
      rw [List.head?_reverse, hx] at hhd
      have hcd : c = d := Option.some.inj hhd
      subst hcd
      exact ⟨rest, rfl⟩
  rw [hrev, dropWhile_append_nonhead hc, ← hrev, List.reverse_append, List.reverse_reverse]

theorem dropTrailing_front (p : Char → Bool) (l : List Char) :
    l = dropTrailing p l ++ (l.reverse.takeWhile p).reverse := by
  unfold dropTrailing
  rw [← List.reverse_append, List.takeWhile_append_dropWhile, List.reverse_reverse]

theorem head?_dropTrailing_some {p : Char → Bool} {l : List Char} {c : Char}
    (h : (dropTrailing p l).head? = some c) : l.head? = some c := by
  rw [dropTrailing_front p l]
  cases hd : dropTrailing p l with
  | nil => rw [hd] at h; simp at h
  | cons d rest =>
    rw [List.cons_append, List.head?_cons]
    rw [hd, List.head?_cons] at h
    exact h

theorem occ_pyStrip {l kw : List Char} (hgood : goodKw kw = true)
    (h : WordBoundedOcc l kw) : WordBoundedOcc (pyStrip l) kw := by
  obtain ⟨pre, w, post, hl, hmap, hleft, hright⟩ := h
  obtain ⟨hne, hsafe, _⟩ := safeW_of_goodKw hgood hmap
  obtain ⟨wh, wt, rfl⟩ : ∃ wh wt, w = wh :: wt := by
    cases w with
    | nil => exact absurd rfl hne
    | cons a b => exact ⟨a, b, rfl⟩
  have hwh := hsafe wh (List.mem_cons_self _ _)
  have h1 : l.dropWhile isPySpace = pre.dropWhile isPySpace ++ ((wh :: wt) ++ post) := by
    rw [hl, List.append_assoc]
    exact dropWhile_append_nonhead hwh.2.1 pre (wt ++ post)
  obtain ⟨cw, hcw, hcwmem⟩ : ∃ cw, (wh :: wt).getLast? = some cw ∧ cw ∈ wh :: wt := by
    cases hg : (wh :: wt).getLast? with
    | none => exact absurd (List.getLast?_eq_none_iff.mp hg) (by simp)
    | some cw => exact ⟨cw, rfl, mem_of_getLast?_eq hg⟩
  have hcwns : isPySpace cw = false := (hsafe cw hcwmem).2.1
  have h2 : pyStrip l
      = (pre.dropWhile isPySpace ++ (wh :: wt)) ++ dropTrailing isPySpace post := by
    unfold pyStrip
    rw [h1, ← List.append_assoc]
    exact dropTrailing_append_of_last (getLast?_append_some hcw) hcwns post
  refine ⟨pre.dropWhile isPySpace, wh :: wt, dropTrailing isPySpace post, h2, hmap, ?_, ?_⟩
  · intro c hc
    exact hleft c (getLast?_dropWhile_some hc)
  · intro c hc
    exact hright c (head?_dropTrailing_some hc)

theorem occ_rstripSemis {l kw : List Char} (hgood : goodKw kw = true)
    (h : WordBoundedOcc l kw) : WordBoundedOcc (rstripSemis l) kw := by
  obtain ⟨pre, w, post, hl, hmap, hleft, hright⟩ := h
  obtain ⟨hne, hsafe, _⟩ := safeW_of_goodKw hgood hmap
  obtain ⟨wh, wt, rfl⟩ : ∃ wh wt, w = wh :: wt := by
    cases w with
    | nil => exact absurd rfl hne
    | cons a b => exact ⟨a, b, rfl⟩
  obtain ⟨cw, hcw, hcwmem⟩ : ∃ cw, (wh :: wt).getLast? = some cw ∧ cw ∈ wh :: wt := by
    cases hg : (wh :: wt).getLast? with
    | none => exact absurd (List.getLast?_eq_none_iff.mp hg) (by simp)
    | some cw => exact ⟨cw, rfl, mem_of_getLast?_eq hg⟩
  have hcwsemi : (cw == ';') = false := (hsafe cw hcwmem).2.2
  have h2 : rstripSemis l = (pre ++ (wh :: wt)) ++ dropTrailing (fun c => c == ';') post := by
    unfold rstripSemis
    rw [hl]
    exact dropTrailing_append_of_last (getLast?_append_some hcw) hcwsemi post
  exact ⟨pre, wh :: wt, dropTrailing (fun c => c == ';') post, h2, hmap, hleft,
    fun c hc => hright c (head?_dropTrailing_some hc)⟩

/-- Word-bounded forbidden-keyword occurrences in the validator input survive
the whole cleaning pipeline of `_clean_and_validate_sql`. -/
theorem occ_clean_sql {sql kw : List Char} (hgood : goodKw kw = true)
    (h : WordBoundedOcc sql kw) : WordBoundedOcc (clean_sql sql) kw :=
  occ_pyStrip hgood (occ_rstripSemis hgood (occ_pyStrip hgood
    (sub_preserves_occ true hgood (occ_pyStrip hgood h))))

/-! ### Boundary constructors for concrete inputs -/

theorem leftBoundary_nil : LeftBoundary [] := fun _ hd => by simp at hd

theorem leftBoundary_of_last {pre : List Char} {c : Char} (h : pre.getLast? = some c)
    (hc : isWordChar c = false) : LeftBoundary pre := by
  intro d hd
  rw [h] at hd
  rw [← Option.some.inj hd]
  exact hc

theorem rightBoundary_of_head {post : List Char} {c : Char} (h : post.head? = some c)
    (hc : isWordChar c = false) : RightBoundary post := by
  intro d hd
  rw [h] at hd
  rw [← Option.some.inj hd]
  exact hc

/-! ### Claim theorems -/

/-- Claim C1 (amended): whenever validation succeeds and returns a statement
`v`, the lowercased `v` begins with the six-character prefix `select` (the
source checks only this prefix, so the first word of `v` need not equal the
SELECT keyword), `v` has no case-insensitive word-boundary-delimited
occurrence of any forbidden keyword, and `v` contains no semicolon. -/
theorem claim_C1_validated_invariant (sql v : List Char)
    (h : clean_and_validate_sql sql = .ok v) :
    startsSelectLower v = true ∧
      (∀ kw ∈ forbiddenKeywords, ¬ WordBoundedOcc v kw) ∧
      v.contains ';' = false := by
  obtain ⟨hv, h1, h2, h3⟩ := validate_ok_inv h
  exact ⟨h1, fun kw hkw => not_occ_of_forbiddenSearch_false hkw h2, h3⟩

/-- Witness for C1 at the concrete accepted statement `SELECT id FROM users`. -/
theorem claim_C1_witness :
    startsSelectLower "SELECT id FROM users".toList = true ∧
      (∀ kw ∈ forbiddenKeywords, ¬ WordBoundedOcc "SELECT id FROM users".toList kw) ∧
      ("SELECT id FROM users".toList).contains ';' = false :=
  claim_C1_validated_invariant "SELECT id FROM users".toList "SELECT id FROM users".toList
    (by rfl)

/-- Counterexample to C1 as stated: validation succeeds on `selectx 1`, whose
first word is `selectx`, not the SELECT keyword, because the source checks
only a six-character prefix. -/
theorem claim_C1_counterexample :
    clean_and_validate_sql "selectx 1".toList = .ok "selectx 1".toList ∧
      (specFirstWord "selectx 1".toList).map Char.toLower ≠ "select".toList :=
  ⟨by rfl, by decide⟩

/-- Claim C2 (amended): every statement containing a case-insensitive,
word-boundary-delimited occurrence of a forbidden keyword fails validation --
with ForbiddenKeywordError whenever the cleaned statement begins with the
prefix `select` (case-insensitively), and otherwise with NotSelectError,
because the SELECT check runs first; and an identifier that merely contains
such a substring without word boundaries (`created_at`) does not trigger any
failure. -/
theorem claim_C2_validator_soundness :
    (∀ sql kw, kw ∈ forbiddenKeywords → WordBoundedOcc sql kw →
        clean_and_validate_sql sql =
          if startsSelectLower (clean_sql sql) = false
          then .error (.notSelect ((clean_sql sql).take 40))
          else .error .forbiddenKeyword) ∧
      clean_and_validate_sql "select created_at from users".toList
        = .ok "select created_at from users".toList := by
  refine ⟨?_, by rfl⟩
  intro sql kw hkw hocc
  have hsearch : forbiddenSearch (clean_sql sql) = true :=
    forbiddenSearch_of_occ hkw (occ_clean_sql (goodKw_forbidden kw hkw) hocc)
  by_cases hsel : startsSelectLower (clean_sql sql) = false
  · rw [if_pos hsel]
    exact validate_notSelect hsel
  · rw [if_neg hsel]
    simp only [clean_and_validate_sql]
    rw [if_neg hsel, if_pos hsearch]

/-- Witness for C2 at the concrete stacked statement
`SELECT 1 ; DROP TABLE users`, which cleans to a select-prefixed text and is
rejected for the word-bounded DROP. -/
theorem claim_C2_witness :
    clean_and_validate_sql "SELECT 1 ; DROP TABLE users".toList
      = .error .forbiddenKeyword := by
  have hocc : WordBoundedOcc "SELECT 1 ; DROP TABLE users".toList "drop".toList :=
    ⟨"SELECT 1 ; ".toList, "DROP".toList, " TABLE users".toList, by rfl, by decide,
      leftBoundary_of_last (show ("SELECT 1 ; ".toList).getLast? = some ' ' from rfl)
        (by decide),
      rightBoundary_of_head (show (" TABLE users".toList).head? = some ' ' from rfl)
        (by decide)⟩
  have h := claim_C2_validator_soundness.1 _ _ (by decide) hocc
  rw [h]
  rfl

/-- Counterexample to C2 as stated: `DROP TABLE users` contains a word-bounded
DROP, yet validation fails with NotSelectError, not ForbiddenKeywordError,
because the SELECT check runs first. -/
theorem claim_C2_counterexample :
    WordBoundedOcc "DROP TABLE users".toList "drop".toList ∧
      clean_and_validate_sql "DROP TABLE users".toList
        = .error (.notSelect "DROP TABLE users".toList) ∧
      ValidationError.notSelect "DROP TABLE users".toList
        ≠ ValidationError.forbiddenKeyword :=
  ⟨⟨[], "DROP".toList, " TABLE users".toList, by rfl, by decide, leftBoundary_nil,
      rightBoundary_of_head (show (" TABLE users".toList).head? = some ' ' from rfl)
        (by decide)⟩,
    by rfl, by decide⟩

/-- Claim C3 (amended): the validator strips every trailing semicolon (after
trimming) before its checks -- `rstrip(";")`, not exactly one -- and then, when
the SELECT and forbidden-keyword checks pass, fails with
MultipleStatementsError exactly when a semicolon remains anywhere in the body;
`SELECT 1;` validates to `SELECT 1` and `SELECT 1; SELECT 2` fails with
MultipleStatementsError. -/
theorem claim_C3_single_statement_gate :
    (∀ sql, clean_and_validate_sql sql = .error .multipleStatements ↔
        startsSelectLower (clean_sql sql) = true ∧
          forbiddenSearch (clean_sql sql) = false ∧
          (clean_sql sql).contains ';' = true) ∧
      clean_and_validate_sql "SELECT 1;".toList = .ok "SELECT 1".toList ∧
      clean_and_validate_sql "SELECT 1; SELECT 2".toList = .error .multipleStatements :=
  ⟨validate_multi_iff, by rfl, by rfl⟩

/-- Witness for C3 applying the equivalence to the concrete statement
`SELECT 5; SELECT 6`. -/
theorem claim_C3_witness :
    clean_and_validate_sql "SELECT 5; SELECT 6".toList = .error .multipleStatements :=
  (claim_C3_single_statement_gate.1 _).mpr ⟨by rfl, by rfl, by rfl⟩

/-- Counterexample to C3 as stated: on `SELECT 1;;` the validator succeeds
(it strips both trailing semicolons), although after stripping exactly one
trailing separator, as the claim describes, a semicolon would remain and the
claim would demand a MultipleStatementsError failure. -/
theorem claim_C3_counterexample :
    clean_and_validate_sql "SELECT 1;;".toList = .ok "SELECT 1".toList ∧
      (specStripOneSemi (pyStrip "SELECT 1;;".toList)).contains ';' = true :=
  ⟨by rfl, by rfl⟩

/-- Claim C4 (amended): the sanitizer trims whitespace and removes every fence
marker matched at the start or end of any line (MULTILINE), not only one
leading and one trailing marker; content outside such matches is unchanged --
in particular a trimmed input without any backtick is returned unchanged --
but interior fence lines are removed, and with stacked backticks the output
can still begin with the fence delimiter. -/
theorem claim_C4_sanitizer_behavior :
    (∀ s : List Char, backtick ∉ pyStrip s → strip_code_fences s = pyStrip s) ∧
      strip_code_fences "```sql\nSELECT 1;\n```".toList = "SELECT 1;".toList ∧
      strip_code_fences "a\n```\nb".toList = "a\nb".toList := by
  refine ⟨?_, by rfl, by rfl⟩
  intro s h
  exact subAux_eq_self_of_no_triple true (no_triple_of_no_backtick h)

/-- Witness for C4 at the concrete backtick-free input. -/
theorem claim_C4_witness :
    strip_code_fences "  SELECT 2  ".toList = pyStrip "  SELECT 2  ".toList :=
  claim_C4_sanitizer_behavior.1 _ (by decide)

/-- Counterexample to C4 as stated: on six stacked backticks the output starts
with the fence delimiter, and an interior fence line is removed even though it
is neither a leading nor a trailing fence marker. -/
theorem claim_C4_counterexample :
    strip_code_fences "``````x".toList = "```x".toList ∧
      startsWithTriple (strip_code_fences "``````x".toList) = true ∧
      strip_code_fences "one\n```\ntwo".toList = "one\ntwo".toList :=
  ⟨by rfl, by rfl, by rfl⟩

/-- Claim C5 (amended): the sanitizer is idempotent on every input whose
sanitized form is already trimmed and contains no triple-backtick fence
delimiter; it is not idempotent in general. -/
theorem claim_C5_sanitize_idempotent (s : List Char)
    (h1 : pyStrip (strip_code_fences s) = strip_code_fences s)
    (h2 : hasTriple (strip_code_fences s) = false) :
    strip_code_fences (strip_code_fences s) = strip_code_fences s := by
  show subAux (pyStrip (strip_code_fences s)) true 0 = strip_code_fences s
  rw [h1]
  exact subAux_eq_self_of_no_triple true h2

/-- Witness for C5 at a concrete fenced input whose sanitized form is clean. -/
theorem claim_C5_witness :
    strip_code_fences (strip_code_fences "```sql\nSELECT 3\n```".toList)
      = strip_code_fences "```sql\nSELECT 3\n```".toList :=
  claim_C5_sanitize_idempotent _ (by rfl) (by rfl)

/-- Counterexample to C5 as stated: sanitizing six stacked backticks before
` q` yields a string with a fresh leading fence marker, which a second
sanitization pass removes, so the two passes disagree. -/
theorem claim_C5_counterexample :
    strip_code_fences "`````` q".toList = "``` q".toList ∧
      strip_code_fences (strip_code_fences "`````` q".toList) = "q".toList ∧
      strip_code_fences (strip_code_fences "`````` q".toList)
        ≠ strip_code_fences "`````` q".toList :=
  ⟨by rfl, by rfl, by decide⟩

/-- Claim C6 (amended): any statement whose cleaned form does not begin with
the prefix `select` (case-insensitively; the source checks only this prefix,
so e.g. `selecting ...` is accepted rather than rejected) fails validation
with NotSelectError carrying the first 40 characters of the cleaned statement
as preview; in particular a CTE beginning with WITH is rejected. -/
theorem claim_C6_select_only_gate :
    (∀ sql, startsSelectLower (clean_sql sql) = false →
        clean_and_validate_sql sql = .error (.notSelect ((clean_sql sql).take 40))) ∧
      clean_and_validate_sql "WITH x AS (SELECT 1) SELECT * FROM x".toList
        = .error (.notSelect "WITH x AS (SELECT 1) SELECT * FROM x".toList) :=
  ⟨fun _ h => validate_notSelect h, by rfl⟩

/-- Witness for C6 at the concrete rejected statement `UPDATE t SET x = 1`. -/
theorem claim_C6_witness :
    clean_and_validate_sql "UPDATE t SET x = 1".toList
      = .error (.notSelect ((clean_sql "UPDATE t SET x = 1".toList).take 40)) :=
  claim_C6_select_only_gate.1 _ (by rfl)

/-- Counterexample to C6 as stated: `selecting * FROM users` has first word
`selecting`, not the SELECT keyword, yet validation succeeds because the
source checks only the six-character prefix. -/
theorem claim_C6_counterexample :
    clean_and_validate_sql "selecting * FROM users".toList
        = .ok "selecting * FROM users".toList ∧
      (specFirstWord "selecting * FROM users".toList).map Char.toLower ≠ "select".toList :=
  ⟨by rfl, by decide⟩

/-- Claim C7: when the model call raises or returns an error, `query_db_impl`
returns the generation-stage failure record, and the result is independent of
the database engine behavior -- the Executor is never invoked. -/
theorem claim_C7_generation_failure (e : List Char)
    (dbExec dbExec' : List Char → ExecOutcome) :
    query_db_impl (.err e) dbExec = .genFailure ("Ollama call failed: ".toList ++ e) ∧
      query_db_impl (.err e) dbExec = query_db_impl (.err e) dbExec' :=
  ⟨rfl, rfl⟩

/-- Claim C8 (amended): on a validation-stage failure the diagnostic field
`llm_sql` holds the generated text after whitespace trimming (the source
strips the chat content before validating, so surrounding whitespace is
removed but nothing else changes; for raw text `DROP TABLE users;` it holds
exactly that text), and on an execution-stage failure the diagnostic field
`sql` holds the validated statement that was executed. -/
theorem claim_C8_partial_data :
    (∀ (content : List Char) (dbExec : List Char → ExecOutcome) (ve : ValidationError),
        clean_and_validate_sql (pyStrip content) = .error ve →
        query_db_impl (.ok content) dbExec
          = .valFailure ("SQL validation failed: ".toList ++ renderValidationError ve)
              (pyStrip content)) ∧
      (∀ (content sql e : List Char) (dbExec : List Char → ExecOutcome),
        clean_and_validate_sql (pyStrip content) = .ok sql → dbExec sql = .err e →
        query_db_impl (.ok content) dbExec
          = .execFailure ("DB execution failed: ".toList ++ e) sql) ∧
      query_db_impl (.ok "DROP TABLE users;".toList) (fun _ => .err [])
        = .valFailure ("SQL validation failed: ".toList
            ++ renderValidationError (.notSelect "DROP TABLE users".toList))
            "DROP TABLE users;".toList := by
  refine ⟨?_, ?_, by rfl⟩
  · intro content dbExec ve h
    simp only [query_db_impl, h]
  · intro content sql e dbExec h1 h2
    simp only [query_db_impl, h1, h2]

/-- Witness for C8 at a concrete validation failure and a concrete execution
failure. -/
theorem claim_C8_witness :
    query_db_impl (.ok "DELETE FROM t;".toList) (fun _ => .ok [])
      = .valFailure ("SQL validation failed: ".toList
          ++ renderValidationError (.notSelect "DELETE FROM t".toList))
          "DELETE FROM t;".toList ∧
      query_db_impl (.ok "SELECT 7".toList) (fun _ => .err "boom".toList)
        = .execFailure ("DB execution failed: ".toList ++ "boom".toList) "SELECT 7".toList :=
  ⟨claim_C8_partial_data.1 _ _ _ (by rfl),
    claim_C8_partial_data.2.1 _ _ _ _ (by rfl) (by rfl)⟩

/-- Counterexample to C8 as stated: for generated text ending in a newline the
diagnostic field holds the trimmed text, which differs from the raw generated
text, so the diagnostic is not the raw text unmodified. -/
theorem claim_C8_counterexample :
    query_db_impl (.ok "DROP TABLE users;\n".toList) (fun _ => .err [])
      = .valFailure ("SQL validation failed: ".toList
          ++ renderValidationError (.notSelect "DROP TABLE users".toList))
          "DROP TABLE users;".toList ∧
      "DROP TABLE users;".toList ≠ "DROP TABLE users;\n".toList :=
  ⟨by rfl, by decide⟩

/-- Claim C9: for every outcome of the model call and of database execution,
`query_db_impl` returns a well-formed record: on success the ok flag is true
and the record carries a statement and rows; otherwise the ok flag is false
and the message starts with the stage-identifying prefix.  The embedding is a
total function of the two collaborator outcomes, so no fault escapes. -/
theorem claim_C9_wellformed_result (chat : ChatOutcome)
    (dbExec : List Char → ExecOutcome) :
    (okFlag (query_db_impl chat dbExec) = true ∧
        ∃ sql rows, query_db_impl chat dbExec = .success sql rows) ∨
      (okFlag (query_db_impl chat dbExec) = false ∧
        stageTagged (query_db_impl chat dbExec) = true) := by
  cases chat with
  | err e => exact Or.inr ⟨rfl, listStartsWith_append _ _⟩
  | ok content =>
    cases hv : clean_and_validate_sql (pyStrip content) with
    | error ve =>
      refine Or.inr ?_
      simp only [query_db_impl, hv]
      exact ⟨rfl, listStartsWith_append _ _⟩
    | ok sql =>
      cases he : dbExec sql with
      | err e =>
        refine Or.inr ?_
        simp only [query_db_impl, hv, he]
        exact ⟨rfl, listStartsWith_append _ _⟩
      | ok rows =>
        refine Or.inl ?_
        simp only [query_db_impl, hv, he]
        exact ⟨rfl, sql, rows, rfl⟩

/-- Claim C10: `query_orders_by_user` returns the exact no-orders message when
the query yields no rows and otherwise the newline-joined rendering of the
rows, and the underlying query returns at most 5 rows, all belonging to the
given user, ordered by order date descending. -/
theorem claim_C10_query_orders (uid : Int) (table : List Order)
    (render : Order → List Char) :
    (orders_query uid table).length ≤ 5 ∧
      (∀ o ∈ orders_query uid table, o.user_id = uid) ∧
      ((orders_query uid table).Pairwise fun a b => b.order_date ≤ a.order_date) ∧
      query_orders_by_user uid table render =
        (if (orders_query uid table).isEmpty then noOrdersMessage uid
         else List.intercalate ['\n'] ((orders_query uid table).map render)) := by
  obtain ⟨h1, h2, h3⟩ := orders_query_spec uid table
  exact ⟨h1, h2, h3, rfl⟩

end McpLlmDb
